import Mathlib

/-
Verification of src/experiment.py: the per-experiment data model and the
entropy/aggregation pipeline.  Numeric series are embedded as lists of
rationals; a raised Python exception is embedded as `none`; the numpy NaN
produced by normalising an all-zero histogram is embedded as the inner
`none` of `get_entropy`'s result.
-/

/-- Flip condition of the sign-correction scan (src/experiment.py line 236):
`abs(series[i] + series[i+1]) < thres * abs(series[i+1])`. -/
def flipCond (thres a b : ℚ) : Prop := |a + b| < thres * |b|

instance (thres a b : ℚ) : Decidable (flipCond thres a b) :=
  inferInstanceAs (Decidable (_ < _))

/-- Negation of the suffix starting at position k, modelling the in-place
numpy update `series_corrected[i + 1:] *= -1` at k = i + 1
(src/experiment.py line 237). -/
def negSuffix (k : Nat) (l : List ℚ) : List ℚ :=
  l.take k ++ (l.drop k).map (fun v => -v)

/-- Loop of `correct_signs` (src/experiment.py lines 235-237): first argument
after thres is the number of remaining iterations, second is the scan index i.
Out-of-range reads default to 0; they never occur on the calls made here. -/
def correctSignsLoop (thres : ℚ) : Nat → Nat → List ℚ → List ℚ
  | 0, _, s => s
  | n+1, i, s =>
    correctSignsLoop thres n (i+1)
      (if flipCond thres (s.getD i 0) (s.getD (i+1) 0) then negSuffix (i+1) s else s)

/-- Model of `correct_signs(series, thres)` (src/experiment.py lines 230-238):
the loop `for i in range(len(series_corrected) - 1)` runs length - 1 times
starting at i = 0.  The Python default thres = 0.5 is passed explicitly as
1/2 by every caller modelled in this file. -/
def correct_signs (series : List ℚ) (thres : ℚ) : List ℚ :=
  correctSignsLoop thres (series.length - 1) 0 series

lemma negSuffix_length (k : Nat) (l : List ℚ) : (negSuffix k l).length = l.length := by
  simp [negSuffix]
  omega

lemma correctSignsLoop_length (thres : ℚ) :
    ∀ (n i : Nat) (s : List ℚ), (correctSignsLoop thres n i s).length = s.length := by
  intro n
  induction n with
  | zero => intro i s; rfl
  | succ n ih =>
    intro i s
    simp only [correctSignsLoop]
    rw [ih]
    split
    · exact negSuffix_length _ _
    · rfl

lemma getD_of_length_le {l : List ℚ} {n : Nat} (h : l.length ≤ n) : l.getD n 0 = 0 :=
  List.getD_eq_default _ 0 h

lemma negSuffix_getD_lt {k j : Nat} (h : j < k) (l : List ℚ) :
    (negSuffix k l).getD j 0 = l.getD j 0 := by
  rcases Nat.lt_or_ge j l.length with hj | hj
  · rw [List.getD_eq_getElem?_getD, List.getD_eq_getElem?_getD, negSuffix,
      List.getElem?_append_left (by simp [List.length_take]; omega),
      List.getElem?_take]
    simp [h]
  · rw [getD_of_length_le (by rw [negSuffix_length]; exact hj), getD_of_length_le hj]

lemma negSuffix_getD_ge {k j : Nat} (h : k ≤ j) (l : List ℚ) :
    (negSuffix k l).getD j 0 = -(l.getD j 0) := by
  rcases Nat.lt_or_ge j l.length with hj | hj
  · rw [List.getD_eq_getElem?_getD, List.getD_eq_getElem?_getD, negSuffix,
      List.getElem?_append_right (by simp [List.length_take]; omega)]
    have hlen : (l.take k).length = k := by
      simp [List.length_take]; omega
    rw [hlen, List.getElem?_map, List.getElem?_drop]
    have : k + (j - k) = j := by omega
    rw [this]
    have hsome : l[j]? = some l[j] := List.getElem?_eq_getElem hj
    simp [hsome]
  · rw [getD_of_length_le (by rw [negSuffix_length]; exact hj), getD_of_length_le hj]
    simp

lemma correctSignsLoop_getD_le (thres : ℚ) :
    ∀ (n i j : Nat), j ≤ i → ∀ s : List ℚ,
      (correctSignsLoop thres n i s).getD j 0 = s.getD j 0 := by
  intro n
  induction n with
  | zero => intro i j _ s; rfl
  | succ n ih =>
    intro i j hj s
    simp only [correctSignsLoop]
    rw [ih (i+1) j (by omega)]
    split
    · exact negSuffix_getD_lt (by omega) s
    · rfl

/-- After the body of iteration i has run, the flip condition no longer holds
at index i (this needs thres ≤ 1). -/
lemma flip_breaks {thres a b : ℚ} (ht : thres ≤ 1) (h : flipCond thres a b) :
    ¬ flipCond thres a (-b) := by
  unfold flipCond at *
  rw [abs_neg]
  intro h2
  have hb : (0:ℚ) ≤ |b| := abs_nonneg b
  have key : |2 * b| ≤ |a + b| + |a + -b| := by
    have h3 := abs_add (a + b) (-(a + -b))
    have h4 : (a + b) + -(a + -b) = 2 * b := by ring
    rw [h4, abs_neg] at h3
    exact h3
  have h5 : |2 * b| = 2 * |b| := by
    rw [abs_mul]
    norm_num
  have h6 : thres * |b| ≤ 1 * |b| := mul_le_mul_of_nonneg_right ht hb
  have h7 : a + -b = a - b := by ring
  rw [h7] at h2 key
  linarith

/-- No flip condition holds at index i of list s (reading out of range as 0). -/
def noFlip (thres : ℚ) (s : List ℚ) (i : Nat) : Prop :=
  ¬ flipCond thres (s.getD i 0) (s.getD (i+1) 0)

lemma noFlip_of_b_eq_zero {thres a : ℚ} : ¬ flipCond thres a 0 := by
  unfold flipCond
  simp

lemma step_noFlip {thres : ℚ} (ht : thres ≤ 1) (i : Nat) (s : List ℚ) :
    noFlip thres
      (if flipCond thres (s.getD i 0) (s.getD (i+1) 0) then negSuffix (i+1) s else s) i := by
  unfold noFlip
  split
  · rw [negSuffix_getD_lt (show i < i+1 by omega), negSuffix_getD_ge (le_refl (i+1))]
    next hcond => exact flip_breaks ht hcond
  · next hcond => exact hcond

lemma step_preserves_noFlip {thres : ℚ} {i j : Nat} (hj : j < i) {s : List ℚ}
    (h : noFlip thres s j) :
    noFlip thres
      (if flipCond thres (s.getD i 0) (s.getD (i+1) 0) then negSuffix (i+1) s else s) j := by
  unfold noFlip at *
  split
  · rw [negSuffix_getD_lt (show j < i+1 by omega), negSuffix_getD_lt (show j+1 < i+1 by omega)]
    exact h
  · exact h

lemma correctSignsLoop_noFlip {thres : ℚ} (ht : thres ≤ 1) :
    ∀ (n i : Nat) (s : List ℚ), (∀ j, j < i → noFlip thres s j) →
      ∀ j, j < i + n → noFlip thres (correctSignsLoop thres n i s) j := by
  intro n
  induction n with
  | zero =>
    intro i s h j hj
    exact h j (by omega)
  | succ n ih =>
    intro i s h j hj
    simp only [correctSignsLoop]
    refine ih (i+1) _ ?_ j (by omega)
    intro j' hj'
    rcases Nat.lt_or_ge j' i with hlt | hge
    · exact step_preserves_noFlip hlt (h j' hlt)
    · have hji : j' = i := by omega
      rw [hji]
      exact step_noFlip ht i s

lemma correctSignsLoop_id {thres : ℚ} :
    ∀ (n i : Nat) (s : List ℚ), (∀ j, noFlip thres s j) →
      correctSignsLoop thres n i s = s := by
  intro n
  induction n with
  | zero => intro i s _; rfl
  | succ n ih =>
    intro i s h
    simp only [correctSignsLoop]
    rw [if_neg (h i), ih (i+1) s h]

/-- Every index of the output of `correct_signs` at threshold 1/2 fails the
flip condition. -/
lemma correct_signs_noFlip (s : List ℚ) (j : Nat) :
    noFlip (1/2) (correct_signs s (1/2)) j := by
  rcases Nat.lt_or_ge j (s.length - 1) with hj | hj
  · exact correctSignsLoop_noFlip (by norm_num) (s.length - 1) 0 s
      (by intro j' hj'; omega) j (by omega)
  · unfold noFlip
    have hlen : (correct_signs s (1/2)).length ≤ j + 1 := by
      unfold correct_signs
      rw [correctSignsLoop_length]
      rcases Nat.eq_zero_or_pos s.length with h0 | h0
      · omega
      · omega
    rw [getD_of_length_le hlen]
    exact noFlip_of_b_eq_zero

lemma correct_signs_length (s : List ℚ) (t : ℚ) :
    (correct_signs s t).length = s.length := by
  unfold correct_signs
  exact correctSignsLoop_length t _ 0 s

lemma correct_signs_head? (s : List ℚ) (t : ℚ) :
    (correct_signs s t).head? = s.head? := by
  rw [List.head?_eq_getElem?, List.head?_eq_getElem?]
  cases s with
  | nil => rfl
  | cons a l =>
    have h1 : (correct_signs (a :: l) t).length = l.length + 1 := by
      rw [correct_signs_length]; rfl
    have h2 : (correct_signs (a :: l) t)[0]? = some ((correct_signs (a :: l) t).getD 0 0) := by
      rw [List.getD_eq_getElem?_getD]
      cases h : (correct_signs (a :: l) t)[0]? with
      | none =>
        rw [List.getElem?_eq_none_iff] at h
        omega
      | some v => rfl
    rw [h2]
    unfold correct_signs
    rw [correctSignsLoop_getD_le t _ 0 0 (by omega)]
    simp [List.getD]

lemma correct_signs_short {s : List ℚ} (h : s.length ≤ 1) (t : ℚ) :
    correct_signs s t = s := by
  unfold correct_signs
  have : s.length - 1 = 0 := by omega
  rw [this]
  rfl

/-- C1.  `correct_signs` at the default threshold 1/2 preserves length and the
first element, and on the spec's example [1, -0.9, -0.8] it returns
[1, 0.9, 0.8]. -/
theorem correct_signs_C1 :
    (∀ s : List ℚ, (correct_signs s (1/2)).length = s.length) ∧
    (∀ s : List ℚ, (correct_signs s (1/2)).head? = s.head?) ∧
    correct_signs [1, -(9/10), -(8/10)] (1/2) = [1, 9/10, 8/10] := by
  refine ⟨fun s => correct_signs_length s _, fun s => correct_signs_head? s _, ?_⟩
  have hc1 : flipCond (1/2) 1 (-(9/10)) := by
    unfold flipCond
    rw [show |(1:ℚ) + -(9/10)| = 1/10 from by rw [abs_of_pos] <;> norm_num,
      show |(-(9/10):ℚ)| = 9/10 from by rw [abs_of_neg] <;> norm_num]
    norm_num
  have hc2 : ¬ flipCond (1/2) (9/10) (4/5) := by
    unfold flipCond
    rw [show |(9/10:ℚ) + 4/5| = 17/10 from by rw [abs_of_pos] <;> norm_num,
      show |(4/5:ℚ)| = 4/5 from by rw [abs_of_pos] <;> norm_num]
    norm_num
  show correctSignsLoop (1/2) 2 0 [1, -(9/10), -(8/10)] = [1, 9/10, 8/10]
  simp only [correctSignsLoop, List.getD]
  norm_num [hc1, negSuffix, hc2]

/-- C3.  Sign correction at the default threshold 1/2 is idempotent, and on an
already-corrected series the flip condition holds at no index. -/
theorem correct_signs_C3 :
    ∀ s : List ℚ,
      correct_signs (correct_signs s (1/2)) (1/2) = correct_signs s (1/2) ∧
      ∀ j, ¬ flipCond (1/2) ((correct_signs s (1/2)).getD j 0)
        ((correct_signs s (1/2)).getD (j+1) 0) := by
  intro s
  constructor
  · unfold correct_signs
    exact correctSignsLoop_id _ 0 _ (fun j => correct_signs_noFlip s j)
  · exact fun j => correct_signs_noFlip s j

/-- C9.  `correct_signs` is a no-op on series of length at most 1, and the flip
condition is false whenever the right-hand neighbour is 0, so the scan is
total with no division-by-zero-like failure. -/
theorem correct_signs_C9 :
    (∀ s : List ℚ, s.length ≤ 1 → correct_signs s (1/2) = s) ∧
    (∀ (s : List ℚ) (i : Nat), s.getD (i+1) 0 = 0 →
      ¬ flipCond (1/2) (s.getD i 0) (s.getD (i+1) 0)) := by
  constructor
  · intro s h
    exact correct_signs_short h _
  · intro s i h
    rw [h]
    exact noFlip_of_b_eq_zero

/-- Witness for C9 at the concrete inputs [5] and [3, 0]. -/
theorem correct_signs_C9_witness :
    correct_signs [5] (1/2) = [5] ∧
    ¬ flipCond (1/2) (([3, 0] : List ℚ).getD 0 0) (([3, 0] : List ℚ).getD 1 0) := by
  constructor
  · exact correct_signs_C9.1 [5] (by simp)
  · exact correct_signs_C9.2 [3, 0] 0 (by rfl)

/-- Column metadata pair, modelling the namedtuple ColumnMeaning
(src/experiment.py line 14). -/
structure ColumnMeaning where
  description : String
  unit : String
deriving DecidableEq

/-- Fixed first eight schema entries (src/experiment.py lines 24-33). -/
def fixedColumns : List ColumnMeaning :=
  [⟨"Time", "ps"⟩,
   ⟨"Total energy of the system", "kJ/mol"⟩,
   ⟨"Total bond energy", "kJ/mol"⟩,
   ⟨"Total angle energy", "kJ/mol"⟩,
   ⟨"Total dihedral energy", "kJ/mol"⟩,
   ⟨"Total planar energy", "kJ/mol"⟩,
   ⟨"Total Coulomb energy", "kJ/mol"⟩,
   ⟨"Total Van der Waals energy", "kJ/mol"⟩]

/-- Angle roles of the main-chain schema (src/experiment.py line 35). -/
def mainChainAngles : List String := ["ϕ₁₄", "ψ₁₄", "ϕ₁₃", "ψ₁₃"]

/-- Angle roles of the side-chain schema (src/experiment.py line 41). -/
def sideChainAngles : List String := ["γ", "ω", "δ"]

/-- Angle schema entry `f"{angle} mers {mer+1}, {mer+2}"` with unit deg
(src/experiment.py lines 38 and 44); mer is the 0-based loop index. -/
def angleColumn (angle : String) (mer : Nat) : ColumnMeaning :=
  ⟨angle ++ " mers " ++ toString (mer + 1) ++ ", " ++ toString (mer + 2), "deg"⟩

/-- Schema builder of Experiment.__init__ (src/experiment.py lines 24-44):
the main chain nests mer outside and angle inside, the side chain nests angle
outside and mer inside; any other chain string leaves only the eight fixed
columns, because the Python if/elif has no else branch. -/
def buildColumns (chain : String) : List ColumnMeaning :=
  fixedColumns ++
    (if chain = "main chain" then
      ((List.range 23).map (fun mer =>
        mainChainAngles.map (fun angle => angleColumn angle mer))).flatten
    else if chain = "side chain" then
      (sideChainAngles.map (fun angle =>
        (List.range 23).map (fun mer => angleColumn angle mer))).flatten
    else [])

/-- Python substring containment `needle in hay` on strings, as used by the
chain classifier (src/experiment.py line 23). -/
def substring_in (needle hay : String) : Prop := needle.toList <:+: hay.toList

instance (needle hay : String) : Decidable (substring_in needle hay) :=
  inferInstanceAs (Decidable (_ <:+: _))

/-- Chain classification of Experiment.__init__ (src/experiment.py line 23):
`'side chain' if 'sidechain' in filepath else 'main chain'`. -/
def classifyChain (filepath : String) : String :=
  if substring_in ("sidechain") filepath then "side chain" else "main chain"

/-- Magic-number dictionary of SetOfExperiments (src/experiment.py lines
131-132); looking up a missing key is a Python KeyError, embedded as none. -/
def magic_numbers (chain : String) : Option Nat :=
  if chain = "analysis" then some 4
  else if chain = "sidechain" then some 1
  else none

/-- Assertion predicate guarding SetOfExperiments.__init__ (src/experiment.py
line 137): true exactly when the chain string is one of the two conventions. -/
def setChainValid (chain : String) : Bool :=
  chain == "analysis" || chain == "sidechain"

set_option maxRecDepth 100000 in
/-- C4.  For every angle role r and logical mer index m in 0..22, the physical
column `base + m * mer_offset` — base the role's column for mer 1 (index
8 + r for the main chain, 8 + 23r for the side chain) and mer_offset the
magic number 4 for 'analysis' or 1 for 'sidechain' — is exactly the schema
entry described as "{role} mers {m+1}, {m+2}". -/
theorem schema_C4 :
    (magic_numbers ("analysis") = some 4 ∧ magic_numbers ("sidechain") = some 1) ∧
    (∀ r, r < 4 → ∀ m, m < 23 →
      (buildColumns ("main chain"))[(8 + r) + 4 * m]? =
        some (angleColumn (mainChainAngles.getD r ("")) m)) ∧
    (∀ r, r < 3 → ∀ m, m < 23 →
      (buildColumns ("side chain"))[(8 + 23 * r) + 1 * m]? =
        some (angleColumn (sideChainAngles.getD r ("")) m)) := by
  refine ⟨⟨by decide, by decide⟩, by decide, by decide⟩

/-- Witness for C4 at role 1, mer 2 of the main chain and role 2, mer 3 of the
side chain. -/
theorem schema_C4_witness :
    (buildColumns ("main chain"))[(8 + 1) + 4 * 2]? =
      some (angleColumn (mainChainAngles.getD 1 ("")) 2) ∧
    (buildColumns ("side chain"))[(8 + 23 * 2) + 1 * 3]? =
      some (angleColumn (sideChainAngles.getD 2 ("")) 3) :=
  ⟨schema_C4.2.1 1 (by norm_num) 2 (by norm_num),
   schema_C4.2.2 2 (by norm_num) 3 (by norm_num)⟩

/-- C5 counterexample: a concrete file path that matches neither chain
convention (it contains neither 'sidechain' nor 'analysis') is nevertheless
classified — as main chain — and receives the full 100-column main-chain
schema; no invalid-schema error is raised by Experiment construction. -/
theorem classify_C5_counterexample :
    ¬ substring_in ("sidechain") ("Albumin+HA_1_bogus_Na.tab") ∧
    ¬ substring_in ("analysis") ("Albumin+HA_1_bogus_Na.tab") ∧
    classifyChain ("Albumin+HA_1_bogus_Na.tab") = "main chain" ∧
    (buildColumns (classifyChain ("Albumin+HA_1_bogus_Na.tab"))).length = 100 := by
  refine ⟨by decide, by decide, by decide, by decide⟩

/-- C5 amended: Experiment construction never fails on a malformed path — any
path not containing 'sidechain' silently defaults to the main-chain
classification with its full schema; fail-fast validation exists only at the
SetOfExperiments level, whose assertion accepts exactly 'analysis' and
'sidechain'. -/
theorem classify_C5_amended :
    (∀ p : String, ¬ substring_in ("sidechain") p →
      classifyChain p = "main chain" ∧
      (buildColumns (classifyChain p)).length = 8 + 23 * 4) ∧
    (∀ c : String, setChainValid c = false ↔ (c ≠ "analysis" ∧ c ≠ "sidechain")) := by
  constructor
  · intro p hp
    have hc : classifyChain p = "main chain" := by
      unfold classifyChain
      rw [if_neg hp]
    refine ⟨hc, ?_⟩
    rw [hc]
    decide
  · intro c
    simp [setChainValid, not_or]

/-- Witness for C5 amended at a concrete malformed path and chain string. -/
theorem classify_C5_witness :
    classifyChain ("data/run_7_weird_Mg.tab") = "main chain" ∧
    (buildColumns (classifyChain ("data/run_7_weird_Mg.tab"))).length = 8 + 23 * 4 ∧
    (setChainValid ("bogus") = false ↔
      (("bogus" : String) ≠ "analysis" ∧ ("bogus" : String) ≠ "sidechain")) := by
  obtain ⟨h1, h2⟩ := classify_C5_amended.1 ("data/run_7_weird_Mg.tab") (by decide)
  exact ⟨h1, h2, classify_C5_amended.2 ("bogus")⟩

/-- Single run (class Experiment, src/experiment.py lines 16-44): the pandas
dataframe is embedded as a list of rows of rationals together with its column
count (a pandas frame keeps its columns even with zero rows); chain is the
classification string produced by `classifyChain`. -/
structure Experiment where
  dataframe : List (List ℚ)
  ncols : Nat
  chain : String

/-- Column extraction `dataframe.iloc[:, c]`; rows are assumed rectangular of
width ncols, callers guard c < ncols. -/
def column (df : List (List ℚ)) (c : Nat) : List ℚ :=
  df.map (fun row => row.getD c 0)

/-- Model of `drop_first_observations` (src/experiment.py lines 46-51):
`df.drop(index=df.index[0], inplace=True)` removes row 0; on an empty frame
`df.index[0]` raises IndexError, embedded as none. -/
def drop_first_observations (e : Experiment) : Option Experiment :=
  match e.dataframe with
  | [] => none
  | _ :: rest => some ⟨rest, e.ncols, e.chain⟩

/-- Histogram edge range, matching numpy's `_get_outer_edges`: data-dependent
min and max, (0, 1) for an empty series, and a width-1 interval centred on
the common value when all entries are equal. -/
def histRange (xs : List ℚ) : ℚ × ℚ :=
  match xs with
  | [] => (0, 1)
  | v :: rest =>
    if rest.foldl min v = rest.foldl max v
    then (rest.foldl min v - 1/2, rest.foldl max v + 1/2)
    else (rest.foldl min v, rest.foldl max v)

/-- Bin index of value v among 10 equal-width bins on [mn, mx], matching
numpy: interior edges are half-open to the right, the last bin also contains
mx. -/
def binIndex (mn mx v : ℚ) : Nat :=
  (min 9 ⌊(v - mn) / (mx - mn) * 10⌋).toNat

/-- Per-sample bin assignment of `np.histogram2d(x, y, bins=10)`. -/
def binPairs (x y : List ℚ) : List (Nat × Nat) :=
  (x.zip y).map (fun p =>
    (binIndex (histRange x).1 (histRange x).2 p.1,
     binIndex (histRange y).1 (histRange y).2 p.2))

/-- Bin-count grid `np.histogram2d(x, y, bins=10)[0]` (src/experiment.py line
119): 10 x 10 counts, rows indexed by the x bin, as rational numbers. -/
def histogram2d (x y : List ℚ) : List (List ℚ) :=
  (List.range 10).map (fun i =>
    (List.range 10).map (fun j => (((binPairs x y).count (i, j) : ℕ) : ℚ)))

/-- Frame part of `get_entropy` (src/experiment.py lines 109-121): drop the
first row, sign-correct both columns at the default threshold, flatten the
2D histogram and normalise by the total count.  The outer none embeds a
raised IndexError (empty frame, or column out of range); the inner none
embeds the numpy NaN vector produced by `h_vec / sum(h_vec)` when the total
count is 0. -/
def get_entropy_frame (e : Experiment) (xcol ycol : Nat) :
    Option (Experiment × Option (List ℚ)) :=
  (drop_first_observations e).bind (fun e' =>
    if xcol < e.ncols ∧ ycol < e.ncols then
      some (e',
        if ((histogram2d (correct_signs (column e'.dataframe xcol) (1/2))
              (correct_signs (column e'.dataframe ycol) (1/2))).flatten).sum = 0
        then none
        else some
          ((histogram2d (correct_signs (column e'.dataframe xcol) (1/2))
              (correct_signs (column e'.dataframe ycol) (1/2))).flatten.map
            (fun v =>
              v / ((histogram2d (correct_signs (column e'.dataframe xcol) (1/2))
                (correct_signs (column e'.dataframe ycol) (1/2))).flatten).sum)))
    else none)

/-- Summand of scipy.stats.entropy: x log x with the 0 log 0 = 0 convention
(scipy's special.entr is 0 at 0). -/
noncomputable def xlogx (q : ℚ) : ℝ :=
  if q = 0 then 0 else (q : ℝ) * Real.log (q : ℝ)

/-- scipy.stats.entropy(pk) with the natural logarithm: pk is renormalised by
its own sum and S = -sum(p * log p). -/
noncomputable def scipy_entropy (pk : List ℚ) : ℝ :=
  -((pk.map (fun p => xlogx (p / pk.sum))).sum)

/-- Model of `Experiment.get_entropy` (src/experiment.py lines 109-123): the
frame part followed by `8.314 * entropy(h_norm)` with the molar gas constant
R = 8.314. -/
noncomputable def get_entropy (e : Experiment) (xcol ycol : Nat) :
    Option (Experiment × Option ℝ) :=
  (get_entropy_frame e xcol ycol).map
    (fun r => (r.1, r.2.map (fun pk => 8.314 * scipy_entropy pk)))

/-- Flattened 10 x 10 histogram of the two sign-corrected columns after the
first-row drop, as the spec describes it for `get_entropy` (empty when the
frame had no rows at all). -/
def hist_flat (e : Experiment) (xcol ycol : Nat) : List ℚ :=
  match e.dataframe with
  | [] => []
  | _ :: rest =>
    (histogram2d (correct_signs (column rest xcol) (1/2))
      (correct_signs (column rest ycol) (1/2))).flatten

/-- Spec-side probability mass function: each flattened bin count divided by
the total count. -/
def pmf_spec (e : Experiment) (xcol ycol : Nat) : List ℚ :=
  (hist_flat e xcol ycol).map (fun v => v / (hist_flat e xcol ycol).sum)

/-- Spec-side natural-log Shannon entropy of a probability mass function,
empty bins contributing zero. -/
noncomputable def shannon_entropy_spec (pmf : List ℚ) : ℝ :=
  -((pmf.map xlogx).sum)

lemma binIndex_lt_10 (mn mx v : ℚ) : binIndex mn mx v < 10 := by
  unfold binIndex
  have h : min 9 ⌊(v - mn) / (mx - mn) * 10⌋ ≤ 9 := min_le_left _ _
  omega

lemma binPairs_bounds (x y : List ℚ) : ∀ p ∈ binPairs x y, p.1 < 10 ∧ p.2 < 10 := by
  intro p hp
  unfold binPairs at hp
  obtain ⟨q, _, rfl⟩ := List.mem_map.mp hp
  exact ⟨binIndex_lt_10 _ _ _, binIndex_lt_10 _ _ _⟩

lemma binPairs_length (x y : List ℚ) : (binPairs x y).length = (x.zip y).length := by
  unfold binPairs
  rw [List.length_map]

lemma list_range_map_sum {M : Type} [AddCommMonoid M] (n : Nat) (f : Nat → M) :
    ((List.range n).map f).sum = ∑ i ∈ Finset.range n, f i := by
  induction n with
  | zero => simp
  | succ n ih =>
    rw [List.range_succ, List.map_append, List.sum_append, Finset.sum_range_succ, ih]
    simp

lemma grid_indicator_sum (p1 p2 : Nat) (h1 : p1 < 10) (h2 : p2 < 10) :
    ∑ i ∈ Finset.range 10, ∑ j ∈ Finset.range 10,
      (if (p1, p2) = (i, j) then (1:ℕ) else 0) = 1 := by
  have hinner : ∀ i, (∑ j ∈ Finset.range 10,
      (if (p1, p2) = (i, j) then (1:ℕ) else 0)) = if p1 = i then 1 else 0 := by
    intro i
    by_cases hi : p1 = i
    · simp only [Prod.mk.injEq, hi, true_and]
      simp [Finset.sum_ite_eq, Finset.sum_ite_eq', h2]
    · simp [Prod.mk.injEq, hi]
  rw [Finset.sum_congr rfl (fun i _ => hinner i)]
  simp [Finset.sum_ite_eq, Finset.sum_ite_eq', h1]

lemma count_grid_sum_nat (bins : List (Nat × Nat)) (h : ∀ p ∈ bins, p.1 < 10 ∧ p.2 < 10) :
    ∑ i ∈ Finset.range 10, ∑ j ∈ Finset.range 10, bins.count (i, j) = bins.length := by
  induction bins with
  | nil => simp
  | cons p t ih =>
    have hp := h p (List.mem_cons_self p t)
    have ht : ∀ q ∈ t, q.1 < 10 ∧ q.2 < 10 := fun q hq => h q (List.mem_cons_of_mem _ hq)
    obtain ⟨p1, p2⟩ := p
    simp only [List.count_cons, beq_iff_eq]
    have hsplit : ∀ i, (∑ j ∈ Finset.range 10,
        (t.count (i, j) + if (p1, p2) = (i, j) then 1 else 0))
        = (∑ j ∈ Finset.range 10, t.count (i, j))
          + ∑ j ∈ Finset.range 10, (if (p1, p2) = (i, j) then (1:ℕ) else 0) :=
      fun i => Finset.sum_add_distrib
    rw [Finset.sum_congr rfl (fun i _ => hsplit i), Finset.sum_add_distrib, ih ht,
      grid_indicator_sum p1 p2 hp.1 hp.2]
    simp

lemma histogram2d_flatten_sum (x y : List ℚ) :
    ((histogram2d x y).flatten).sum = ((x.zip y).length : ℚ) := by
  unfold histogram2d
  rw [List.sum_flatten, List.map_map]
  have hrow : ∀ i : Nat, (List.sum ∘ fun i =>
      (List.range 10).map fun j => (((binPairs x y).count (i, j) : ℕ) : ℚ)) i
      = ∑ j ∈ Finset.range 10, (((binPairs x y).count (i, j) : ℕ) : ℚ) := by
    intro i
    simp only [Function.comp]
    exact list_range_map_sum 10 _
  rw [List.map_congr_left (fun i _ => hrow i), list_range_map_sum]
  have : ∑ i ∈ Finset.range 10, ∑ j ∈ Finset.range 10, (((binPairs x y).count (i, j) : ℕ) : ℚ)
      = (((∑ i ∈ Finset.range 10, ∑ j ∈ Finset.range 10, (binPairs x y).count (i, j) : ℕ)) : ℚ) := by
    push_cast
    rfl
  rw [this, count_grid_sum_nat _ (binPairs_bounds x y), binPairs_length]

lemma histogram2d_flatten_length (x y : List ℚ) :
    ((histogram2d x y).flatten).length = 100 := by
  unfold histogram2d
  rw [List.length_flatten, List.map_map]
  have hlen : ∀ i ∈ List.range 10, (List.length ∘ fun i =>
      (List.range 10).map fun j => (((binPairs x y).count (i, j) : ℕ) : ℚ)) i = 10 := by
    intro i _
    simp
  rw [List.map_congr_left hlen]
  rfl

lemma sum_map_div (l : List ℚ) (s : ℚ) : (l.map (fun v => v / s)).sum = l.sum / s := by
  induction l with
  | nil => simp
  | cons a t ih => simp [ih, add_div]

lemma scipy_entropy_of_sum_one {pk : List ℚ} (h : pk.sum = 1) :
    scipy_entropy pk = shannon_entropy_spec pk := by
  unfold scipy_entropy shannon_entropy_spec
  rw [h]
  simp

lemma sum_map_const_of_eq {l : List ℚ} {c : ℚ} (f : ℚ → ℝ) (h : ∀ p ∈ l, p = c) :
    (l.map f).sum = l.length • f c := by
  rw [List.sum_eq_card_nsmul (l.map f) (f c)]
  · rw [List.length_map]
  · intro v hv
    obtain ⟨p, hp, rfl⟩ := List.mem_map.mp hv
    rw [h p hp]

/-- Flattened histogram of the two sign-corrected columns of a dropped frame;
this is the value the source calls `h_vec` (src/experiment.py line 120). -/
def corrected_hist (rest : List (List ℚ)) (xcol ycol : Nat) : List ℚ :=
  (histogram2d (correct_signs (column rest xcol) (1/2))
    (correct_signs (column rest ycol) (1/2))).flatten

lemma get_entropy_frame_cons {e : Experiment} {a : List ℚ} {rest : List (List ℚ)}
    (hdf : e.dataframe = a :: rest) {xcol ycol : Nat}
    (hx : xcol < e.ncols) (hy : ycol < e.ncols) :
    get_entropy_frame e xcol ycol = some (⟨rest, e.ncols, e.chain⟩,
      if (corrected_hist rest xcol ycol).sum = 0 then none
      else some ((corrected_hist rest xcol ycol).map
        (fun v => v / (corrected_hist rest xcol ycol).sum))) := by
  unfold get_entropy_frame drop_first_observations corrected_hist
  rw [hdf]
  simp only [Option.some_bind]
  rw [if_pos ⟨hx, hy⟩]

lemma hist_flat_cons {e : Experiment} {a : List ℚ} {rest : List (List ℚ)}
    (hdf : e.dataframe = a :: rest) (xcol ycol : Nat) :
    hist_flat e xcol ycol = corrected_hist rest xcol ycol := by
  unfold hist_flat corrected_hist
  rw [hdf]

lemma column_length (df : List (List ℚ)) (c : Nat) : (column df c).length = df.length := by
  unfold column
  rw [List.length_map]

lemma corrected_hist_sum (rest : List (List ℚ)) (xcol ycol : Nat) :
    (corrected_hist rest xcol ycol).sum = (rest.length : ℚ) := by
  unfold corrected_hist
  rw [histogram2d_flatten_sum, List.length_zip, correct_signs_length,
    correct_signs_length, column_length, column_length, min_self]

lemma corrected_hist_length (rest : List (List ℚ)) (xcol ycol : Nat) :
    (corrected_hist rest xcol ycol).length = 100 := histogram2d_flatten_length _ _

/-- Evaluation of `get_entropy` on a frame with exactly one row: after the
drop the frame is empty, the histogram total is 0, the normalisation
`h_vec / sum(h_vec)` is a 0/0 NaN vector, and scipy propagates it, so the
call returns NaN rather than raising anything. -/
lemma get_entropy_one_row {e : Experiment} {xcol ycol : Nat}
    (hlen : e.dataframe.length = 1) (hx : xcol < e.ncols) (hy : ycol < e.ncols) :
    get_entropy e xcol ycol = some (⟨[], e.ncols, e.chain⟩, none) := by
  obtain ⟨a, hdf⟩ : ∃ a, e.dataframe = [a] := by
    cases h : e.dataframe with
    | nil => rw [h] at hlen; simp at hlen
    | cons a l =>
      rw [h, List.length_cons] at hlen
      have hl : l = [] := List.length_eq_zero.mp (by omega)
      exact ⟨a, by rw [hl]⟩
  have hframe := get_entropy_frame_cons hdf hx hy
  have hzero : (corrected_hist ([] : List (List ℚ)) xcol ycol).sum = 0 := by
    rw [corrected_hist_sum]
    rfl
  unfold get_entropy
  rw [hframe, if_pos hzero]
  rfl

/-- C6 counterexample: on a concrete experiment whose table has zero rows
after the internal drop, `get_entropy` does not fail — it returns the NaN
value (embedded as the inner none) produced by normalising an all-zero
histogram. -/
theorem get_entropy_C6_counterexample :
    get_entropy ⟨[[3, 4]], 2, "main chain"⟩ 0 1
      = some (⟨[], 2, "main chain"⟩, none) :=
  get_entropy_one_row rfl (by norm_num) (by norm_num)

/-- C6 amended: for every experiment whose table has zero rows after the
internal first-row drop (and in-range columns), `get_entropy` silently
returns the NaN produced by the 0/0 normalisation — the numpy division
`h_vec / 0` only warns — instead of failing with an explicit empty-dataset
error. -/
theorem get_entropy_C6_amended (e : Experiment) (xcol ycol : Nat)
    (hlen : e.dataframe.length = 1) (hx : xcol < e.ncols) (hy : ycol < e.ncols) :
    ∃ e', get_entropy e xcol ycol = some (e', none) ∧ e'.dataframe = [] :=
  ⟨⟨[], e.ncols, e.chain⟩, get_entropy_one_row hlen hx hy, rfl⟩

/-- Witness for C6 amended at a concrete one-row experiment. -/
theorem get_entropy_C6_witness :
    ∃ e', get_entropy ⟨[[7]], 1, "side chain"⟩ 0 0 = some (e', none) ∧
      e'.dataframe = [] :=
  get_entropy_C6_amended ⟨[[7]], 1, "side chain"⟩ 0 0 rfl (by norm_num) (by norm_num)

/-- Iterated calls of `get_entropy` on the same experiment, threading the
mutated state exactly as repeated Python method calls on one object do. -/
noncomputable def get_entropy_iter (xcol ycol : Nat) : Nat → Experiment → Option Experiment
  | 0, e => some e
  | k+1, e => (get_entropy e xcol ycol).bind (fun r => get_entropy_iter xcol ycol k r.1)

lemma get_entropy_state {e : Experiment} {a : List ℚ} {rest : List (List ℚ)}
    (hdf : e.dataframe = a :: rest) {xcol ycol : Nat}
    (hx : xcol < e.ncols) (hy : ycol < e.ncols) :
    ∃ v, get_entropy e xcol ycol = some (⟨rest, e.ncols, e.chain⟩, v) := by
  unfold get_entropy
  rw [get_entropy_frame_cons hdf hx hy]
  exact ⟨_, rfl⟩

/-- C8.  Every successful `get_entropy` call removes exactly the first row of
the table; there is no guard against repetition, so k successive calls leave
the table exactly k rows shorter, with the remaining rows and every other
field unchanged. -/
theorem get_entropy_C8 (xcol ycol : Nat) :
    ∀ (k : Nat) (e : Experiment), xcol < e.ncols → ycol < e.ncols →
      k ≤ e.dataframe.length →
      ∃ e', get_entropy_iter xcol ycol k e = some e' ∧
        e'.dataframe = e.dataframe.drop k ∧
        e'.dataframe.length + k = e.dataframe.length ∧
        e'.ncols = e.ncols ∧ e'.chain = e.chain := by
  intro k
  induction k with
  | zero =>
    intro e _ _ _
    exact ⟨e, rfl, by simp, by simp, rfl, rfl⟩
  | succ k ih =>
    intro e hx hy hk
    obtain ⟨a, rest, hdf⟩ : ∃ a rest, e.dataframe = a :: rest := by
      cases h : e.dataframe with
      | nil => rw [h] at hk; simp at hk
      | cons a rest => exact ⟨a, rest, rfl⟩
    obtain ⟨v, hv⟩ := get_entropy_state hdf hx hy
    have hk' : k ≤ rest.length := by
      rw [hdf, List.length_cons] at hk
      omega
    obtain ⟨e', h1, h2, h3, h4, h5⟩ := ih ⟨rest, e.ncols, e.chain⟩ hx hy hk'
    refine ⟨e', ?_, ?_, ?_, h4, h5⟩
    · show (get_entropy e xcol ycol).bind (fun r => get_entropy_iter xcol ycol k r.1) = some e'
      rw [hv]
      exact h1
    · rw [hdf, List.drop_succ_cons]
      exact h2
    · rw [hdf, List.length_cons]
      have : e'.dataframe.length + k = rest.length := h3
      omega

/-- Witness for C8: two successive calls on a concrete three-row experiment
leave exactly one row. -/
theorem get_entropy_C8_witness :
    ∃ e', get_entropy_iter 0 0 2 ⟨[[1], [2], [3]], 1, "main chain"⟩ = some e' ∧
      e'.dataframe = ([[1], [2], [3]] : List (List ℚ)).drop 2 ∧
      e'.dataframe.length + 2 = ([[1], [2], [3]] : List (List ℚ)).length ∧
      e'.ncols = 1 ∧ e'.chain = "main chain" :=
  get_entropy_C8 0 0 2 ⟨[[1], [2], [3]], 1, "main chain"⟩
    (by norm_num) (by norm_num) (by norm_num)

/-- C2.  On a table that is non-empty after the internal first-row drop and
for in-range columns, `get_entropy` returns 8.314 times the natural-log
Shannon entropy of the pmf obtained by flattening the 10 x 10 histogram of
the two sign-corrected columns and dividing each bin count by the total
count; when all 100 bins hold an equal positive count the result is
8.314 * ln 100. -/
theorem get_entropy_C2 (e : Experiment) (xcol ycol : Nat)
    (hx : xcol < e.ncols) (hy : ycol < e.ncols) (hrows : 2 ≤ e.dataframe.length) :
    ∃ e' r, get_entropy e xcol ycol = some (e', some r) ∧
      r = 8.314 * shannon_entropy_spec (pmf_spec e xcol ycol) ∧
      (∀ c : ℚ, 0 < c → (∀ b ∈ hist_flat e xcol ycol, b = c) →
        r = 8.314 * Real.log 100) := by
  obtain ⟨a, rest, hdf⟩ : ∃ a rest, e.dataframe = a :: rest := by
    cases h : e.dataframe with
    | nil => rw [h] at hrows; simp at hrows
    | cons a rest => exact ⟨a, rest, rfl⟩
  have hrest : 1 ≤ rest.length := by
    rw [hdf, List.length_cons] at hrows
    omega
  have hsum : (corrected_hist rest xcol ycol).sum = (rest.length : ℚ) :=
    corrected_hist_sum rest xcol ycol
  have hs0 : (corrected_hist rest xcol ycol).sum ≠ 0 := by
    rw [hsum]
    exact Nat.cast_ne_zero.mpr (by omega)
  have hframe := get_entropy_frame_cons hdf hx hy
  have hone : ((corrected_hist rest xcol ycol).map
      (fun v => v / (corrected_hist rest xcol ycol).sum)).sum = 1 := by
    rw [sum_map_div, div_self hs0]
  refine ⟨⟨rest, e.ncols, e.chain⟩,
    8.314 * scipy_entropy ((corrected_hist rest xcol ycol).map
      (fun v => v / (corrected_hist rest xcol ycol).sum)), ?_, ?_, ?_⟩
  · unfold get_entropy
    rw [hframe, if_neg hs0]
    rfl
  · rw [scipy_entropy_of_sum_one hone]
    unfold pmf_spec
    rw [hist_flat_cons hdf]
  · intro c hc huniform
    rw [hist_flat_cons hdf] at huniform
    have hc0 : c ≠ 0 := ne_of_gt hc
    have hlen100 : (corrected_hist rest xcol ycol).length = 100 :=
      corrected_hist_length rest xcol ycol
    have hsumc : (corrected_hist rest xcol ycol).sum = 100 * c := by
      rw [List.sum_eq_card_nsmul _ c huniform, hlen100]
      rw [nsmul_eq_mul]
      norm_num
    have hentry : ∀ q ∈ (corrected_hist rest xcol ycol).map
        (fun v => v / (corrected_hist rest xcol ycol).sum), q = 1/100 := by
      intro q hq
      obtain ⟨b, hb, rfl⟩ := List.mem_map.mp hq
      rw [huniform b hb, hsumc]
      field_simp
      ring
    rw [scipy_entropy_of_sum_one hone]
    unfold shannon_entropy_spec
    rw [sum_map_const_of_eq xlogx hentry, List.length_map, hlen100]
    unfold xlogx
    rw [if_neg (by norm_num)]
    have hcast : (((1:ℚ)/100 : ℚ) : ℝ) = 1/100 := by push_cast; ring
    rw [hcast, nsmul_eq_mul, one_div, Real.log_inv]
    push_cast
    ring

lemma getD_nonneg {s : List ℚ} (h : ∀ v ∈ s, 0 ≤ v) (j : Nat) : 0 ≤ s.getD j 0 := by
  rcases Nat.lt_or_ge j s.length with hj | hj
  · rw [List.getD_eq_getElem?_getD, List.getElem?_eq_getElem hj]
    exact h _ (List.getElem_mem hj)
  · rw [getD_of_length_le hj]

/-- On a series of non-negative values the flip condition never fires, so
sign correction is the identity. -/
lemma correct_signs_of_nonneg {s : List ℚ} (h : ∀ v ∈ s, 0 ≤ v) :
    correct_signs s (1/2) = s := by
  unfold correct_signs
  apply correctSignsLoop_id
  intro j
  unfold noFlip flipCond
  intro hlt
  have ha : 0 ≤ s.getD j 0 := getD_nonneg h j
  have hb : 0 ≤ s.getD (j+1) 0 := getD_nonneg h (j+1)
  rw [abs_of_nonneg (by linarith), abs_of_nonneg hb] at hlt
  linarith

lemma foldl_min_mem (v : ℚ) (l : List ℚ) : l.foldl min v ∈ v :: l := by
  induction l generalizing v with
  | nil => simp
  | cons a t ih =>
    rw [List.foldl_cons]
    rcases List.mem_cons.mp (ih (min v a)) with h' | h'
    · rcases min_choice v a with hm | hm
      · rw [h', hm]
        exact List.mem_cons_self _ _
      · rw [h', hm]
        exact List.mem_cons_of_mem _ (List.mem_cons_self _ _)
    · exact List.mem_cons_of_mem _ (List.mem_cons_of_mem _ h')

lemma foldl_min_le (v : ℚ) (l : List ℚ) : ∀ x ∈ v :: l, l.foldl min v ≤ x := by
  induction l generalizing v with
  | nil =>
    intro x hx
    rcases List.mem_cons.mp hx with h' | h'
    · rw [h']
      simp
    · simp at h'
  | cons a t ih =>
    intro x hx
    rw [List.foldl_cons]
    rcases List.mem_cons.mp hx with h' | h'
    · calc t.foldl min (min v a) ≤ min v a :=
            ih (min v a) _ (List.mem_cons_self _ _)
        _ ≤ x := by rw [h']; exact min_le_left _ _
    · rcases List.mem_cons.mp h' with h'' | h''
      · calc t.foldl min (min v a) ≤ min v a :=
              ih (min v a) _ (List.mem_cons_self _ _)
          _ ≤ x := by rw [h'']; exact min_le_right _ _
      · exact ih (min v a) x (List.mem_cons_of_mem _ h'')

lemma foldl_max_mem (v : ℚ) (l : List ℚ) : l.foldl max v ∈ v :: l := by
  induction l generalizing v with
  | nil => simp
  | cons a t ih =>
    rw [List.foldl_cons]
    rcases List.mem_cons.mp (ih (max v a)) with h' | h'
    · rcases max_choice v a with hm | hm
      · rw [h', hm]
        exact List.mem_cons_self _ _
      · rw [h', hm]
        exact List.mem_cons_of_mem _ (List.mem_cons_self _ _)
    · exact List.mem_cons_of_mem _ (List.mem_cons_of_mem _ h')

lemma foldl_max_ge (v : ℚ) (l : List ℚ) : ∀ x ∈ v :: l, x ≤ l.foldl max v := by
  induction l generalizing v with
  | nil =>
    intro x hx
    rcases List.mem_cons.mp hx with h' | h'
    · rw [h']
      simp
    · simp at h'
  | cons a t ih =>
    intro x hx
    rw [List.foldl_cons]
    rcases List.mem_cons.mp hx with h' | h'
    · calc x ≤ max v a := by rw [h']; exact le_max_left _ _
        _ ≤ t.foldl max (max v a) := ih (max v a) _ (List.mem_cons_self _ _)
    · rcases List.mem_cons.mp h' with h'' | h''
      · calc x ≤ max v a := by rw [h'']; exact le_max_right _ _
          _ ≤ t.foldl max (max v a) := ih (max v a) _ (List.mem_cons_self _ _)
      · exact ih (max v a) x (List.mem_cons_of_mem _ h'')

/-- The numpy histogram range of a non-constant series is its (min, max). -/
lemma histRange_eq {xs : List ℚ} {lo hi : ℚ} (hne_nil : xs ≠ [])
    (hlo : lo ∈ xs) (hhi : hi ∈ xs)
    (hb : ∀ x ∈ xs, lo ≤ x ∧ x ≤ hi) (hne : lo ≠ hi) :
    histRange xs = (lo, hi) := by
  cases xs with
  | nil => exact absurd rfl hne_nil
  | cons v rest =>
    have hmin : rest.foldl min v = lo :=
      le_antisymm (foldl_min_le v rest lo hlo) (hb _ (foldl_min_mem v rest)).1
    have hmax : rest.foldl max v = hi :=
      le_antisymm (hb _ (foldl_max_mem v rest)).2 (foldl_max_ge v rest hi hhi)
    simp only [histRange]
    rw [hmin, hmax, if_neg hne]

/-- On the integer grid 0..9 scaled to the range [0, 9], the numpy bin of the
value d is d itself. -/
lemma binIndex_nat {d : Nat} (hd : d < 10) : binIndex 0 9 ((d : ℕ) : ℚ) = d := by
  unfold binIndex
  rcases Nat.lt_or_ge d 9 with h9 | h9
  · have hdq : ((d : ℕ) : ℚ) < 9 := by
      have : ((d : ℕ) : ℚ) < ((9 : ℕ) : ℚ) := by
        exact_mod_cast h9
      simpa using this
    have hdq0 : (0:ℚ) ≤ ((d : ℕ) : ℚ) := Nat.cast_nonneg d
    have hfloor : ⌊(((d:ℕ):ℚ) - 0) / (9 - 0) * 10⌋ = (d : ℤ) := by
      rw [Int.floor_eq_iff]
      constructor
      · rw [sub_zero, sub_zero, div_mul_eq_mul_div, le_div_iff (by norm_num)]
        push_cast
        linarith
      · rw [sub_zero, sub_zero, div_mul_eq_mul_div, div_lt_iff (by norm_num)]
        push_cast
        linarith
    rw [hfloor]
    have hmin : min (9:ℤ) (d:ℤ) = (d:ℤ) := by
      rw [min_eq_right]
      exact_mod_cast Nat.le_of_lt_succ (by omega)
    rw [hmin]
    omega
  · have hd9 : d = 9 := by omega
    subst hd9
    have hfloor : ⌊((((9:ℕ):ℚ)) - 0) / (9 - 0) * 10⌋ = (10 : ℤ) := by
      rw [Int.floor_eq_iff]
      constructor
      · rw [sub_zero, sub_zero]
        push_cast
        norm_num
      · rw [sub_zero, sub_zero]
        push_cast
        norm_num
    rw [hfloor]
    rfl

/-- Membership in the flattened histogram: every entry is the count of one of
the 100 bins. -/
lemma mem_histogram2d_flatten {x y : List ℚ} {b : ℚ}
    (hb : b ∈ (histogram2d x y).flatten) :
    ∃ i j, i < 10 ∧ j < 10 ∧ b = (((binPairs x y).count (i, j) : ℕ) : ℚ) := by
  rw [List.mem_flatten] at hb
  obtain ⟨row, hrow, hbrow⟩ := hb
  unfold histogram2d at hrow
  obtain ⟨i, hi, rfl⟩ := List.mem_map.mp hrow
  obtain ⟨j, hj, rfl⟩ := List.mem_map.mp hbrow
  exact ⟨i, j, List.mem_range.mp hi, List.mem_range.mp hj, rfl⟩

/-- Witness data for C2: a first row followed by 100 rows whose two columns
run through all pairs (i, j) with 0 ≤ i, j ≤ 9 exactly once. -/
def uniformTail : List (List ℚ) :=
  (List.range 100).map (fun k => [((k / 10 : Nat) : ℚ), ((k % 10 : Nat) : ℚ)])

/-- Witness experiment for C2. -/
def uniformExp : Experiment := ⟨([0, 0] : List ℚ) :: uniformTail, 2, "main chain"⟩

lemma uniform_col0 : column uniformTail 0
    = (List.range 100).map (fun k => ((k / 10 : Nat) : ℚ)) := by
  unfold uniformTail column
  rw [List.map_map]
  rfl

lemma uniform_col1 : column uniformTail 1
    = (List.range 100).map (fun k => ((k % 10 : Nat) : ℚ)) := by
  unfold uniformTail column
  rw [List.map_map]
  rfl

lemma uniform_col0_bounds :
    ∀ v ∈ (List.range 100).map (fun k => ((k / 10 : Nat) : ℚ)), 0 ≤ v ∧ v ≤ 9 := by
  intro v hv
  obtain ⟨k, hk, rfl⟩ := List.mem_map.mp hv
  have hk' := List.mem_range.mp hk
  refine ⟨Nat.cast_nonneg _, ?_⟩
  have h9 : k / 10 ≤ 9 := by omega
  calc ((k / 10 : Nat) : ℚ) ≤ ((9 : Nat) : ℚ) := by exact_mod_cast h9
    _ = 9 := by norm_num

lemma uniform_col1_bounds :
    ∀ v ∈ (List.range 100).map (fun k => ((k % 10 : Nat) : ℚ)), 0 ≤ v ∧ v ≤ 9 := by
  intro v hv
  obtain ⟨k, hk, rfl⟩ := List.mem_map.mp hv
  refine ⟨Nat.cast_nonneg _, ?_⟩
  have h9 : k % 10 ≤ 9 := by omega
  calc ((k % 10 : Nat) : ℚ) ≤ ((9 : Nat) : ℚ) := by exact_mod_cast h9
    _ = 9 := by norm_num

lemma uniform_histRange0 :
    histRange ((List.range 100).map (fun k => ((k / 10 : Nat) : ℚ))) = (0, 9) := by
  apply histRange_eq
  · simp
  · exact List.mem_map.mpr ⟨0, by simp, by norm_num⟩
  · exact List.mem_map.mpr ⟨99, by simp, by norm_num⟩
  · exact uniform_col0_bounds
  · norm_num

lemma uniform_histRange1 :
    histRange ((List.range 100).map (fun k => ((k % 10 : Nat) : ℚ))) = (0, 9) := by
  apply histRange_eq
  · simp
  · exact List.mem_map.mpr ⟨0, by simp, by norm_num⟩
  · exact List.mem_map.mpr ⟨9, by simp, by norm_num⟩
  · exact uniform_col1_bounds
  · norm_num

lemma uniform_binPairs :
    binPairs ((List.range 100).map (fun k => ((k / 10 : Nat) : ℚ)))
        ((List.range 100).map (fun k => ((k % 10 : Nat) : ℚ)))
      = (List.range 100).map (fun k => (k / 10, k % 10)) := by
  unfold binPairs
  rw [uniform_histRange0, uniform_histRange1, List.zip_map', List.map_map]
  apply List.map_congr_left
  intro k hk
  have hk' := List.mem_range.mp hk
  simp only [Function.comp]
  rw [binIndex_nat (by omega), binIndex_nat (by omega)]

lemma uniform_counts : ∀ i, i < 10 → ∀ j, j < 10 →
    ((List.range 100).map (fun k => (k / 10, k % 10))).count (i, j) = 1 := by decide

/-- The 100 bins of the witness experiment all hold count 1. -/
lemma uniform_hist_flat : ∀ b ∈ hist_flat uniformExp 0 1, b = (1:ℚ) := by
  intro b hb
  rw [hist_flat_cons (rfl : uniformExp.dataframe = ([0, 0] : List ℚ) :: uniformTail)] at hb
  unfold corrected_hist at hb
  rw [uniform_col0, uniform_col1,
    correct_signs_of_nonneg (fun v hv => (uniform_col0_bounds v hv).1),
    correct_signs_of_nonneg (fun v hv => (uniform_col1_bounds v hv).1)] at hb
  obtain ⟨i, j, hi, hj, rfl⟩ := mem_histogram2d_flatten hb
  rw [uniform_binPairs, uniform_counts i hi j hj]
  norm_num

/-- Witness for C2 at the concrete uniform experiment: every hypothesis of
the theorem is discharged, including the all-bins-equal premise, and the
entropy is exactly 8.314 * ln 100. -/
theorem get_entropy_C2_witness :
    ∃ e' r, get_entropy uniformExp 0 1 = some (e', some r) ∧
      r = 8.314 * Real.log 100 := by
  obtain ⟨e', r, h1, _, h3⟩ := get_entropy_C2 uniformExp 0 1
    (by norm_num [uniformExp]) (by norm_num [uniformExp])
    (by simp [uniformExp, uniformTail])
  exact ⟨e', r, h1, h3 1 one_pos (fun b hb => uniform_hist_flat b hb)⟩

/-- Realisation set (class SetOfExperiments, src/experiment.py lines 126-142):
the constructor loads no_experiments files into `experiments` and fixes the
magic number from the chain convention. -/
structure SetOfExperiments where
  experiments : List Experiment
  ion : String
  chain : String
  no_experiments : Nat
  magic_number : Nat

/-- Option-valued traversal of a list, stopping at the first failure, the way
a Python list comprehension stops at the first raised exception. -/
def listTraverse {α β : Type} (f : α → Option β) : List α → Option (List β)
  | [] => some []
  | a :: l =>
    match f a with
    | none => none
    | some b => (listTraverse f l).map (fun r => b :: r)

/-- Model of `hist_of_entropy` (src/experiment.py lines 144-164): the entropy
of the same column pair on every experiment of the set, in realisation order,
mutating each experiment; the plotting branch is out-of-scope glue. -/
noncomputable def hist_of_entropy (s : SetOfExperiments) (xcol ycol : Nat) :
    Option (SetOfExperiments × List (Option ℝ)) :=
  (listTraverse (fun e => get_entropy e xcol ycol) s.experiments).map
    (fun l => (⟨l.map Prod.fst, s.ion, s.chain, s.no_experiments, s.magic_number⟩,
      l.map Prod.snd))

/-- numpy sort of real values. -/
noncomputable def np_sort (l : List ℝ) : List ℝ := l.insertionSort (fun a b => a ≤ b)

/-- np.median: a NaN entry (none) or an empty list gives NaN; otherwise the
middle sorted value, or the mean of the two middle sorted values. -/
noncomputable def np_median (l : List (Option ℝ)) : Option ℝ :=
  match listTraverse id l with
  | none => none
  | some vs =>
    if vs.length = 0 then none
    else if vs.length % 2 = 1 then some ((np_sort vs).getD (vs.length / 2) 0)
    else some (((np_sort vs).getD (vs.length / 2 - 1) 0
      + (np_sort vs).getD (vs.length / 2) 0) / 2)

/-- np.percentile with the default linear interpolation: virtual position
q/100 * (n-1) in the sorted values, interpolated between the two neighbouring
entries; a NaN entry or an empty list gives NaN. -/
noncomputable def np_percentile (l : List (Option ℝ)) (q : ℝ) : Option ℝ :=
  match listTraverse id l with
  | none => none
  | some vs =>
    if vs.length = 0 then none
    else
      some ((np_sort vs).getD ⌊q / 100 * ((vs.length : ℝ) - 1)⌋.toNat 0
        + (q / 100 * ((vs.length : ℝ) - 1) - ⌊q / 100 * ((vs.length : ℝ) - 1)⌋)
          * ((np_sort vs).getD (⌊q / 100 * ((vs.length : ℝ) - 1)⌋.toNat + 1)
              ((np_sort vs).getD ⌊q / 100 * ((vs.length : ℝ) - 1)⌋.toNat 0)
            - (np_sort vs).getD ⌊q / 100 * ((vs.length : ℝ) - 1)⌋.toNat 0))

/-- Per-mer scan shared by both aggregation modes (src/experiment.py lines
174-175 and 207-208): at logical mer m the columns are xcol + magic * m and
ycol + magic * m; the per-mer entropy lists are collected in mer order while
the mutated set is threaded through. -/
noncomputable def edrLoop (xcol ycol magic : Nat) :
    Nat → Nat → SetOfExperiments →
    Option (SetOfExperiments × List (List (Option ℝ)))
  | 0, _, s => some (s, [])
  | n+1, mer, s =>
    match hist_of_entropy s (xcol + magic * mer) (ycol + magic * mer) with
    | none => none
    | some (s', es) =>
      match edrLoop xcol ycol magic n (mer+1) s' with
      | none => none
      | some (s'', rest) => some (s'', es :: rest)

/-- Loop of `entropy_distribution_percentiles` (src/experiment.py lines
174-178): per mer, the median and the 5th and 95th percentiles of the
per-realisation entropies are accumulated. -/
noncomputable def edpLoop (xcol ycol magic : Nat) :
    Nat → Nat → SetOfExperiments →
    Option (SetOfExperiments × List (Option ℝ) × List (Option ℝ) × List (Option ℝ))
  | 0, _, s => some (s, [], [], [])
  | n+1, mer, s =>
    match hist_of_entropy s (xcol + magic * mer) (ycol + magic * mer) with
    | none => none
    | some (s', es) =>
      match edpLoop xcol ycol magic n (mer+1) s' with
      | none => none
      | some (s'', ms, ps, qs) =>
        some (s'', np_median es :: ms, np_percentile es 5 :: ps,
          np_percentile es 95 :: qs)

/-- Model of `entropy_distribution_percentiles` (src/experiment.py lines
166-198): the Python return value is `median_entropy` alone (line 198); the
two percentile sequences are computed only for the plt.plot calls. -/
noncomputable def entropy_distribution_percentiles (s : SetOfExperiments)
    (xcol ycol : Nat) (no_mers : Nat) :
    Option (SetOfExperiments × List (Option ℝ)) :=
  (edpLoop xcol ycol s.magic_number no_mers 0 s).map (fun r => (r.1, r.2.1))

/-- Model of `entropy_distribution_realisations` (src/experiment.py lines
200-228): per-mer entropy arrays are collected, then for j in range(12) the
plot data `[entropies[i][j] for i in range(no_mers)]` is read; reading a
slot beyond an array's length is a numpy IndexError, embedded as none. -/
noncomputable def entropy_distribution_realisations (s : SetOfExperiments)
    (xcol ycol : Nat) (no_mers : Nat) :
    Option (SetOfExperiments × List (List (Option ℝ))) :=
  match edrLoop xcol ycol s.magic_number no_mers 0 s with
  | none => none
  | some (s', ess) =>
    match listTraverse (fun j => listTraverse (fun i =>
        (ess[i]?).bind (fun es => es[j]?)) (List.range no_mers)) (List.range 12) with
    | none => none
    | some rows => some (s', rows)

lemma listTraverse_length {α β : Type} (f : α → Option β) :
    ∀ (l : List α) (r : List β), listTraverse f l = some r → r.length = l.length := by
  intro l
  induction l with
  | nil =>
    intro r hr
    simp only [listTraverse, Option.some.injEq] at hr
    rw [← hr]
    rfl
  | cons a t ih =>
    intro r hr
    simp only [listTraverse] at hr
    cases hfa : f a with
    | none => rw [hfa] at hr; simp at hr
    | some b =>
      rw [hfa] at hr
      obtain ⟨rt, hrt, hre⟩ := Option.map_eq_some'.mp hr
      rw [← hre, List.length_cons, List.length_cons, ih rt hrt]

lemma listTraverse_eq_none {α β : Type} (f : α → Option β) :
    ∀ (l : List α) (a : α), a ∈ l → f a = none → listTraverse f l = none := by
  intro l
  induction l with
  | nil => intro a ha; simp at ha
  | cons b t ih =>
    intro a ha hfa
    simp only [listTraverse]
    rcases List.mem_cons.mp ha with h | h
    · rw [← h, hfa]
    · cases hfb : f b with
      | none => rfl
      | some c => rw [ih a h hfa]; rfl

lemma hist_of_entropy_lengths {s : SetOfExperiments} {xcol ycol : Nat}
    {s' : SetOfExperiments} {es : List (Option ℝ)}
    (h : hist_of_entropy s xcol ycol = some (s', es)) :
    es.length = s.experiments.length
      ∧ s'.experiments.length = s.experiments.length
      ∧ s'.magic_number = s.magic_number := by
  unfold hist_of_entropy at h
  obtain ⟨l, hl, heq⟩ := Option.map_eq_some'.mp h
  rw [Prod.mk.injEq] at heq
  obtain ⟨hs', hes⟩ := heq
  have hlen := listTraverse_length _ _ _ hl
  constructor
  · rw [← hes, List.length_map, hlen]
  constructor
  · rw [← hs']
    show (l.map Prod.fst).length = s.experiments.length
    rw [List.length_map, hlen]
  · rw [← hs']

lemma edrLoop_lengths (xcol ycol magic : Nat) :
    ∀ (n mer : Nat) (s s' : SetOfExperiments) (ess : List (List (Option ℝ))),
      edrLoop xcol ycol magic n mer s = some (s', ess) →
      ess.length = n ∧ (∀ es ∈ ess, es.length = s.experiments.length)
        ∧ s'.experiments.length = s.experiments.length := by
  intro n
  induction n with
  | zero =>
    intro mer s s' ess h
    simp only [edrLoop, Option.some.injEq, Prod.mk.injEq] at h
    obtain ⟨hs, hess⟩ := h
    rw [← hs, ← hess]
    exact ⟨rfl, by intro es hes; simp at hes, rfl⟩
  | succ n ih =>
    intro mer s s' ess h
    simp only [edrLoop] at h
    cases hh : hist_of_entropy s (xcol + magic * mer) (ycol + magic * mer) with
    | none => rw [hh] at h; simp at h
    | some p =>
      obtain ⟨s1, es⟩ := p
      rw [hh] at h
      dsimp only at h
      cases hr : edrLoop xcol ycol magic n (mer+1) s1 with
      | none => rw [hr] at h; simp at h
      | some q =>
        obtain ⟨s2, rest⟩ := q
        rw [hr] at h
        simp only [Option.some.injEq, Prod.mk.injEq] at h
        obtain ⟨hs2, hess⟩ := h
        obtain ⟨hl1, hl2, hl3⟩ := hist_of_entropy_lengths hh
        obtain ⟨hr1, hr2, hr3⟩ := ih (mer+1) s1 s2 rest hr
        constructor
        · rw [← hess, List.length_cons, hr1]
        constructor
        · intro es' hes'
          rw [← hess] at hes'
          rcases List.mem_cons.mp hes' with h' | h'
          · rw [h', hl1]
          · rw [hr2 es' h', hl2]
        · rw [← hs2, hr3, hl2]

/-- C10.  `entropy_distribution_realisations` hard-codes 12 realisation
slots: whenever the per-mer entropy scan succeeds on a set holding fewer
than 12 experiments (as built for no_experiments < 12) and at least one mer
is scanned, the subsequent read of slot j = no_experiments raises an
index-out-of-range error, so the whole call fails. -/
theorem entropy_distribution_realisations_C10 (s : SetOfExperiments)
    (xcol ycol no_mers : Nat) (hexp : s.experiments.length = s.no_experiments)
    (hlt : s.no_experiments < 12) (hmers : 0 < no_mers)
    (hloop : (edrLoop xcol ycol s.magic_number no_mers 0 s).isSome) :
    entropy_distribution_realisations s xcol ycol no_mers = none := by
  obtain ⟨p, hsome⟩ := Option.isSome_iff_exists.mp hloop
  obtain ⟨s', ess⟩ := p
  obtain ⟨hlen, hall, _⟩ := edrLoop_lengths xcol ycol s.magic_number no_mers 0 s s' ess hsome
  obtain ⟨es0, hes0⟩ : ∃ es0, ess[0]? = some es0 := by
    cases hess : ess with
    | nil => rw [hess] at hlen; simp at hlen; omega
    | cons es0 t => exact ⟨es0, by simp⟩
  have hes0mem : es0 ∈ ess := by
    have := List.getElem?_eq_some_iff.mp hes0
    obtain ⟨hlt', hget⟩ := this
    rw [← hget]
    exact List.getElem_mem hlt'
  have hes0len : es0.length = s.experiments.length := hall es0 hes0mem
  have hinner : listTraverse (fun i => (ess[i]?).bind (fun es => es[es0.length]?))
      (List.range no_mers) = none := by
    apply listTraverse_eq_none _ _ 0
    · rw [List.mem_range]
      omega
    · rw [hes0]
      show es0[es0.length]? = none
      rw [List.getElem?_eq_none_iff]
  have houter : listTraverse (fun j => listTraverse (fun i =>
      (ess[i]?).bind (fun es => es[j]?)) (List.range no_mers)) (List.range 12) = none :=
    listTraverse_eq_none _ _ es0.length (by rw [List.mem_range]; omega) hinner
  simp only [entropy_distribution_realisations, hsome, houter]

/-- Both aggregation loops share one traversal: the percentile loop is the
raw per-mer loop with each entropy list reduced to median and percentiles. -/
lemma edpLoop_eq_map (xcol ycol magic : Nat) :
    ∀ (n mer : Nat) (s : SetOfExperiments),
      edpLoop xcol ycol magic n mer s
        = (edrLoop xcol ycol magic n mer s).map
            (fun r => (r.1, r.2.map np_median,
              r.2.map (fun es => np_percentile es 5),
              r.2.map (fun es => np_percentile es 95))) := by
  intro n
  induction n with
  | zero => intro mer s; rfl
  | succ n ih =>
    intro mer s
    simp only [edpLoop, edrLoop]
    cases hh : hist_of_entropy s (xcol + magic * mer) (ycol + magic * mer) with
    | none => rfl
    | some p =>
      obtain ⟨s1, es⟩ := p
      dsimp only
      rw [ih (mer+1) s1]
      cases hr : edrLoop xcol ycol magic n (mer+1) s1 with
      | none => rfl
      | some q => rfl

/-- C7 amended.  When `entropy_distribution_percentiles` succeeds, its return
value is exactly the ordered-by-mer sequence of per-mer medians — length
no_mers, each entry np.median of that mer's per-realisation entropy list,
computed at the offset columns by the shared per-mer scan — while the 5th
and 95th linear-interpolation percentile sequences are computed but only
handed to the plotting sink, never returned. -/
theorem entropy_distribution_percentiles_C7 (s : SetOfExperiments)
    (xcol ycol no_mers : Nat) (s' : SetOfExperiments) (meds : List (Option ℝ))
    (h : entropy_distribution_percentiles s xcol ycol no_mers = some (s', meds)) :
    ∃ ess, edrLoop xcol ycol s.magic_number no_mers 0 s = some (s', ess) ∧
      ess.length = no_mers ∧
      meds = ess.map np_median ∧
      edpLoop xcol ycol s.magic_number no_mers 0 s
        = some (s', meds, ess.map (fun es => np_percentile es 5),
            ess.map (fun es => np_percentile es 95)) := by
  unfold entropy_distribution_percentiles at h
  rw [edpLoop_eq_map] at h
  cases hr : edrLoop xcol ycol s.magic_number no_mers 0 s with
  | none => rw [hr] at h; simp at h
  | some q =>
    obtain ⟨s'', ess⟩ := q
    rw [hr] at h
    simp only [Option.map_some', Option.some.injEq, Prod.mk.injEq] at h
    obtain ⟨hs, hm⟩ := h
    subst hs
    subst hm
    refine ⟨ess, rfl,
      (edrLoop_lengths xcol ycol s.magic_number no_mers 0 s _ ess hr).1, rfl, ?_⟩
    rw [edpLoop_eq_map, hr]
    rfl

lemma sum_zero_or_rat (c : ℚ) :
    ∀ l : List ℚ, (∀ p ∈ l, p = 0 ∨ p = c) → l.sum = (l.count c : ℚ) * c := by
  intro l
  induction l with
  | nil => intro _; simp
  | cons a t ih =>
    intro h
    have ha := h a (List.mem_cons_self a t)
    have ht : ∀ p ∈ t, p = 0 ∨ p = c := fun p hp => h p (List.mem_cons_of_mem _ hp)
    rw [List.sum_cons, ih ht, List.count_cons]
    rcases ha with ha | ha
    · by_cases hc : c = a
      · rw [ha] at hc
        rw [ha, hc]
        simp
      · have hac : ¬ a = c := fun hh => hc hh.symm
        simp only [beq_iff_eq, if_neg hac]
        rw [ha]
        push_cast
        ring
    · rw [ha]
      simp only [beq_iff_eq, if_pos rfl]
      push_cast
      ring

lemma sum_map_zero_or (f : ℚ → ℝ) (h0 : f 0 = 0) (c : ℚ) :
    ∀ l : List ℚ, (∀ p ∈ l, p = 0 ∨ p = c) →
      (l.map f).sum = (l.count c : ℝ) * f c := by
  intro l
  induction l with
  | nil => intro _; simp
  | cons a t ih =>
    intro h
    have ha := h a (List.mem_cons_self a t)
    have ht : ∀ p ∈ t, p = 0 ∨ p = c := fun p hp => h p (List.mem_cons_of_mem _ hp)
    rw [List.map_cons, List.sum_cons, ih ht, List.count_cons]
    rcases ha with ha | ha
    · by_cases hc : c = a
      · rw [ha] at hc
        rw [ha, hc, h0]
        simp
      · have hac : ¬ a = c := fun hh => hc hh.symm
        simp only [beq_iff_eq, if_neg hac]
        rw [ha, h0]
        push_cast
        ring
    · rw [ha]
      simp only [beq_iff_eq, if_pos rfl]
      push_cast
      ring

lemma scipy_entropy_eq_zero {pk : List ℚ} (h1 : pk.sum = 1)
    (h : ∀ p ∈ pk, p = 0 ∨ p = 1) : scipy_entropy pk = 0 := by
  unfold scipy_entropy
  rw [h1]
  have hz : ∀ v ∈ pk.map (fun p => xlogx (p / 1)), v = 0 := by
    intro v hv
    obtain ⟨p, hp, rfl⟩ := List.mem_map.mp hv
    rcases h p hp with hp' | hp'
    · rw [hp']
      norm_num [xlogx]
    · rw [hp']
      norm_num [xlogx]
  rw [List.sum_eq_zero hz]
  norm_num

lemma scipy_entropy_log_two {pk : List ℚ} (h1 : pk.sum = 1)
    (h : ∀ p ∈ pk, p = 0 ∨ p = 1/2) : scipy_entropy pk = Real.log 2 := by
  have hcount : (pk.count (1/2) : ℚ) * (1/2) = 1 := by
    rw [← sum_zero_or_rat (1/2) pk h, h1]
  have hc2 : pk.count (1/2) = 2 := by
    have h2 : (pk.count (1/2) : ℚ) = 2 := by linarith
    exact_mod_cast h2
  unfold scipy_entropy
  rw [h1]
  rw [sum_map_zero_or (fun p => xlogx (p / 1)) (by norm_num [xlogx]) (1/2) pk h, hc2]
  unfold xlogx
  rw [if_neg (by norm_num)]
  have hcast : (((1:ℚ)/2/1 : ℚ) : ℝ) = 1/2 := by push_cast; ring
  rw [hcast, one_div, Real.log_inv]
  push_cast
  ring

lemma corrected_hist_expA : corrected_hist [[(0:ℚ), 0]] 0 1
    = (histogram2d [0] [0]).flatten := by
  unfold corrected_hist
  rw [show column [[(0:ℚ), 0]] 0 = [0] from rfl,
    show column [[(0:ℚ), 0]] 1 = [0] from rfl,
    correct_signs_short (show ([(0:ℚ)] : List ℚ).length ≤ 1 by norm_num)]

lemma corrected_hist_expB : corrected_hist [[(0:ℚ), 0], [9, 9]] 0 1
    = (histogram2d [0, 9] [0, 9]).flatten := by
  unfold corrected_hist
  have hnn : ∀ v ∈ ([0, 9] : List ℚ), 0 ≤ v := by
    intro v hv
    simp at hv
    rcases hv with h' | h' <;> rw [h'] <;> norm_num
  rw [show column [[(0:ℚ), 0], [9, 9]] 0 = [0, 9] from rfl,
    show column [[(0:ℚ), 0], [9, 9]] 1 = [0, 9] from rfl,
    correct_signs_of_nonneg hnn]

lemma expA_pmf_entries : ∀ b ∈ (histogram2d [(0:ℚ)] [0]).flatten, b = 0 ∨ b = 1 := by
  intro b hb
  obtain ⟨i, j, hi, hj, rfl⟩ := mem_histogram2d_flatten hb
  have hle : (binPairs [(0:ℚ)] [0]).count (i, j) ≤ 1 := by
    calc (binPairs [(0:ℚ)] [0]).count (i, j) ≤ (binPairs [(0:ℚ)] [0]).length :=
          List.count_le_length _ _
      _ = 1 := by rw [binPairs_length]; rfl
  have h01 : (binPairs [(0:ℚ)] [0]).count (i, j) = 0
      ∨ (binPairs [(0:ℚ)] [0]).count (i, j) = 1 := by omega
  rcases h01 with h' | h'
  · left; rw [h']; norm_num
  · right; rw [h']; norm_num

lemma histRange_09 : histRange [(0:ℚ), 9] = (0, 9) := by
  simp only [histRange, List.foldl_cons, List.foldl_nil]
  rw [min_eq_left (by norm_num), max_eq_right (by norm_num), if_neg (by norm_num)]

lemma binIndex_0 : binIndex 0 9 (0:ℚ) = 0 := by
  have h := @binIndex_nat 0 (by norm_num)
  rwa [Nat.cast_zero] at h

lemma binIndex_9 : binIndex 0 9 (9:ℚ) = 9 := by
  have h := @binIndex_nat 9 (by norm_num)
  rwa [show (((9:ℕ)):ℚ) = 9 from by norm_num] at h

lemma expB_binPairs : binPairs [(0:ℚ), 9] [0, 9] = [(0, 0), (9, 9)] := by
  unfold binPairs
  rw [histRange_09]
  rw [show ([(0:ℚ), 9].zip [(0:ℚ), 9]) = [(0, 0), (9, 9)] from rfl]
  simp only [List.map_cons, List.map_nil]
  rw [binIndex_0, binIndex_9]

lemma expB_pmf_entries : ∀ b ∈ (histogram2d [(0:ℚ), 9] [0, 9]).flatten,
    b = 0 ∨ b = 1 := by
  intro b hb
  obtain ⟨i, j, hi, hj, rfl⟩ := mem_histogram2d_flatten hb
  rw [expB_binPairs]
  by_cases h00 : ((i:ℕ), (j:ℕ)) = (0, 0)
  · right
    rw [h00, show ([(0, 0), (9, 9)] : List (ℕ × ℕ)).count (0, 0) = 1 from by decide]
    norm_num
  · by_cases h99 : ((i:ℕ), (j:ℕ)) = (9, 9)
    · right
      rw [h99, show ([(0, 0), (9, 9)] : List (ℕ × ℕ)).count (9, 9) = 1 from by decide]
      norm_num
    · left
      have hnm : ((i:ℕ), (j:ℕ)) ∉ ([(0, 0), (9, 9)] : List (ℕ × ℕ)) := by
        intro hmem
        rcases List.mem_cons.mp hmem with h' | h'
        · exact h00 h'
        · rcases List.mem_cons.mp h' with h'' | h''
          · exact h99 h''
          · simp at h''
      rw [List.count_eq_zero.mpr hnm]
      norm_num

/-- Concrete realisation with a single post-drop point: its histogram puts
the one sample in one bin and the entropy is 0. -/
def expA : Experiment := ⟨[[0, 0], [0, 0]], 2, "main chain"⟩

/-- Concrete realisation with two post-drop points in two different bins:
its pmf is 1/2 on two bins and the entropy is 8.314 * ln 2. -/
def expB : Experiment := ⟨[[0, 0], [0, 0], [9, 9]], 2, "main chain"⟩

lemma expA_entropy : get_entropy expA 0 1
    = some (⟨[[0, 0]], 2, "main chain"⟩, some 0) := by
  have hframe := get_entropy_frame_cons (rfl : expA.dataframe = [0, 0] :: [[0, 0]])
    (show 0 < expA.ncols by norm_num [expA]) (show 1 < expA.ncols by norm_num [expA])
  have hsum1 : (corrected_hist [[(0:ℚ), 0]] 0 1).sum = 1 := by
    rw [corrected_hist_sum]
    norm_num
  have hs0 : (corrected_hist [[(0:ℚ), 0]] 0 1).sum ≠ 0 := by
    rw [hsum1]
    norm_num
  have hval : scipy_entropy ((corrected_hist [[(0:ℚ), 0]] 0 1).map
      (fun v => v / (corrected_hist [[(0:ℚ), 0]] 0 1).sum)) = 0 := by
    apply scipy_entropy_eq_zero
    · rw [sum_map_div, hsum1]
      norm_num
    · intro p hp
      obtain ⟨b, hb, rfl⟩ := List.mem_map.mp hp
      rw [hsum1, div_one]
      rw [corrected_hist_expA] at hb
      exact expA_pmf_entries b hb
  unfold get_entropy
  rw [hframe]
  simp only [Option.map_some', if_neg hs0]
  rw [hval, mul_zero]
  rfl

lemma expB_entropy : get_entropy expB 0 1
    = some (⟨[[0, 0], [9, 9]], 2, "main chain"⟩, some (8.314 * Real.log 2)) := by
  have hframe := get_entropy_frame_cons
    (rfl : expB.dataframe = [0, 0] :: [[0, 0], [9, 9]])
    (show 0 < expB.ncols by norm_num [expB]) (show 1 < expB.ncols by norm_num [expB])
  have hsum2 : (corrected_hist [[(0:ℚ), 0], [9, 9]] 0 1).sum = 2 := by
    rw [corrected_hist_sum]
    norm_num
  have hs0 : (corrected_hist [[(0:ℚ), 0], [9, 9]] 0 1).sum ≠ 0 := by
    rw [hsum2]
    norm_num
  have hval : scipy_entropy ((corrected_hist [[(0:ℚ), 0], [9, 9]] 0 1).map
      (fun v => v / (corrected_hist [[(0:ℚ), 0], [9, 9]] 0 1).sum)) = Real.log 2 := by
    apply scipy_entropy_log_two
    · rw [sum_map_div, hsum2]
      norm_num
    · intro p hp
      obtain ⟨b, hb, rfl⟩ := List.mem_map.mp hp
      rw [hsum2]
      rw [corrected_hist_expB] at hb
      rcases expB_pmf_entries b hb with h' | h'
      · left
        rw [h']
        norm_num
      · right
        rw [h']
  unfold get_entropy
  rw [hframe]
  simp only [Option.map_some', if_neg hs0]
  rw [hval]
  rfl

/-- Concrete two-realisation set for exercising the percentile pipeline. -/
def s7 : SetOfExperiments := ⟨[expA, expB], "Na", "analysis", 2, 4⟩

/-- State of `s7` after one per-mer scan (each experiment lost its first
row). -/
def s7' : SetOfExperiments :=
  ⟨[⟨[[0, 0]], 2, "main chain"⟩, ⟨[[0, 0], [9, 9]], 2, "main chain"⟩],
    "Na", "analysis", 2, 4⟩

lemma s7_hist : hist_of_entropy s7 0 1
    = some (s7', [some 0, some (8.314 * Real.log 2)]) := by
  unfold hist_of_entropy
  have htrav : listTraverse (fun e => get_entropy e 0 1) s7.experiments
      = some [(⟨[[0, 0]], 2, "main chain"⟩, some (0:ℝ)),
          (⟨[[0, 0], [9, 9]], 2, "main chain"⟩, some (8.314 * Real.log 2))] := by
    show listTraverse (fun e => get_entropy e 0 1) [expA, expB] = _
    simp only [listTraverse, expA_entropy, expB_entropy]
    rfl
  rw [htrav]
  rfl

lemma s7_edpLoop : edpLoop 0 1 s7.magic_number 1 0 s7
    = some (s7', [np_median [some 0, some (8.314 * Real.log 2)]],
        [np_percentile [some 0, some (8.314 * Real.log 2)] 5],
        [np_percentile [some 0, some (8.314 * Real.log 2)] 95]) := by
  simp only [edpLoop]
  have h : hist_of_entropy s7 (0 + s7.magic_number * 0) (1 + s7.magic_number * 0)
      = some (s7', [some 0, some (8.314 * Real.log 2)]) := s7_hist
  rw [h]

lemma s7_edp : entropy_distribution_percentiles s7 0 1 1
    = some (s7', [np_median [some 0, some (8.314 * Real.log 2)]]) := by
  unfold entropy_distribution_percentiles
  rw [s7_edpLoop]
  rfl

lemma log2_pos : (0:ℝ) < 8.314 * Real.log 2 := by
  have h2 : (0:ℝ) < Real.log 2 := Real.log_pos (by norm_num)
  nlinarith

lemma np_sort_pair {a b : ℝ} (hab : a ≤ b) : np_sort [a, b] = [a, b] := by
  unfold np_sort
  simp [List.insertionSort, List.orderedInsert, hab]

/-- np.median of two real values is their mean. -/
lemma np_median_two (a b : ℝ) (hab : a ≤ b) :
    np_median [some a, some b] = some ((a + b) / 2) := by
  unfold np_median
  rw [show listTraverse id [some a, some b] = some [a, b] from rfl]
  dsimp only
  rw [if_neg (by norm_num), if_neg (by norm_num)]
  rw [np_sort_pair hab]
  norm_num [List.getD]

/-- np.percentile of two real values at q in [0, 100) linearly interpolates
between them. -/
lemma np_percentile_two (a b q : ℝ) (hab : a ≤ b) (hq0 : 0 ≤ q / 100)
    (hq1 : q / 100 < 1) :
    np_percentile [some a, some b] q = some (a + q / 100 * (b - a)) := by
  unfold np_percentile
  rw [show listTraverse id [some a, some b] = some [a, b] from rfl]
  dsimp only
  rw [if_neg (by norm_num)]
  have hlen : (([a, b] : List ℝ).length : ℝ) = 2 := by norm_num
  rw [hlen]
  have hpos : q / 100 * ((2:ℝ) - 1) = q / 100 := by ring
  rw [hpos]
  have hfl : ⌊q / 100⌋ = 0 := by
    rw [Int.floor_eq_zero_iff]
    exact ⟨hq0, hq1⟩
  rw [hfl, np_sort_pair hab]
  norm_num [List.getD]

/-- C7 counterexample: on a concrete two-realisation set with entropies 0 and
8.314 ln 2, the function's return value is the median sequence alone — the
5th-percentile sequence, computed for the plotting sink, is a different value
and is not contained in what is returned. -/
theorem entropy_distribution_percentiles_C7_counterexample :
    (entropy_distribution_percentiles s7 0 1 1).map (fun r => r.2)
      = some [some (8.314 * Real.log 2 / 2)] ∧
    (edpLoop 0 1 s7.magic_number 1 0 s7).map (fun r => r.2.2.1)
      = some [some (8.314 * Real.log 2 / 20)] ∧
    some (8.314 * Real.log 2 / 20) ∉ [some (8.314 * Real.log 2 / 2)] := by
  have hb : (0:ℝ) ≤ 8.314 * Real.log 2 := le_of_lt log2_pos
  refine ⟨?_, ?_, ?_⟩
  · rw [s7_edp]
    simp only [Option.map_some']
    rw [np_median_two 0 (8.314 * Real.log 2) hb]
    norm_num
  · rw [s7_edpLoop]
    simp only [Option.map_some']
    rw [np_percentile_two 0 (8.314 * Real.log 2) 5 hb (by norm_num) (by norm_num)]
    norm_num
    ring
  · simp only [List.mem_singleton, Option.some.injEq]
    intro hcontra
    have hz : 8.314 * Real.log 2 = 0 := by linarith
    have := log2_pos
    linarith

/-- Witness for C7 amended at the concrete two-realisation set. -/
theorem entropy_distribution_percentiles_C7_witness :
    ∃ s'' meds ess, entropy_distribution_percentiles s7 0 1 1 = some (s'', meds) ∧
      edrLoop 0 1 s7.magic_number 1 0 s7 = some (s'', ess) ∧
      ess.length = 1 ∧ meds = ess.map np_median := by
  obtain ⟨ess, h1, h2, h3, _⟩ :=
    entropy_distribution_percentiles_C7 s7 0 1 1 s7' _ s7_edp
  exact ⟨s7', _, ess, s7_edp, h1, h2, h3⟩

/-- Concrete one-realisation set for exercising the hard-coded 12-slot loop. -/
def c10Set : SetOfExperiments := ⟨[expA], "Na", "sidechain", 1, 1⟩

lemma c10_hist : hist_of_entropy c10Set 0 1
    = some (⟨[⟨[[0, 0]], 2, "main chain"⟩], "Na", "sidechain", 1, 1⟩, [some 0]) := by
  unfold hist_of_entropy
  have htrav : listTraverse (fun e => get_entropy e 0 1) c10Set.experiments
      = some [(⟨[[0, 0]], 2, "main chain"⟩, some (0:ℝ))] := by
    show listTraverse (fun e => get_entropy e 0 1) [expA] = _
    simp only [listTraverse, expA_entropy]
    rfl
  rw [htrav]
  rfl

lemma c10_loop : (edrLoop 0 1 c10Set.magic_number 1 0 c10Set).isSome := by
  simp only [edrLoop]
  have h : hist_of_entropy c10Set (0 + c10Set.magic_number * 0)
        (1 + c10Set.magic_number * 0)
      = some (⟨[⟨[[0, 0]], 2, "main chain"⟩], "Na", "sidechain", 1, 1⟩, [some 0]) :=
    c10_hist
  rw [h]
  rfl

/-- Witness for C10 at a concrete set holding a single experiment: the
per-mer scan succeeds but the realisation plot loop fails. -/
theorem entropy_distribution_realisations_C10_witness :
    entropy_distribution_realisations c10Set 0 1 1 = none :=
  entropy_distribution_realisations_C10 c10Set 0 1 1 rfl (by norm_num [c10Set])
    (by norm_num) c10_loop
